import Mathlib

/-!
Shallow embedding of the core of the R2M2 mod-tagging tool (src/mods.rs,
src/app.rs, src/app/widgets/form.rs) and proofs about its specification
claims.

Conventions of the embedding:
* Rust `u64`/`usize` values are `Nat`; overflow checks are explicit where
  the source can overflow (string-to-integer parsing rejects values ≥ 2^64,
  as Rust `str::parse` does).
* Rust `String` is Lean `String`; the Rust `Ord` instance (lexicographic by
  UTF-8 bytes, which coincides with lexicographic by code point) is modelled
  by an explicit comparator on the character list.
* Fallible operations (Rust `unwrap`) return `Option`; `none` models a panic.
* Randomness (`rand::rng()` in `random_color`) is modelled by an oracle
  argument supplying the drawn RGB triple.
-/

set_option autoImplicit false

namespace R2M2

/-- Model of Rust `Ord::cmp` on a linearly ordered type. -/
def cmpv {α : Type} [LinearOrder α] (a b : α) : Ordering :=
  if a < b then .lt else if a = b then .eq else .gt

/-- Lexicographic comparison of lists by a comparator; models Rust
`Iterator::cmp` (a strict prefix is less). -/
def cmpList {α : Type} (c : α → α → Ordering) : List α → List α → Ordering
  | [], [] => .eq
  | [], _ :: _ => .lt
  | _ :: _, [] => .gt
  | x :: xs, y :: ys => (c x y).then (cmpList c xs ys)

/-- Character comparison by code point (equal to Rust byte order on UTF-8). -/
def cmpChar (a b : Char) : Ordering := cmpv a.toNat b.toNat

/-- Model of Rust `Ord::cmp` for `String`. -/
def cmpStr (a b : String) : Ordering := cmpList cmpChar a.data b.data

/-- Model of Rust `str::trim` (drop whitespace from both ends). -/
def str_trim (s : String) : String :=
  ⟨((s.data.dropWhile Char.isWhitespace).reverse.dropWhile Char.isWhitespace).reverse⟩

/-- Model of Rust `str::parse::<u64>` (also `usize` on 64-bit targets):
an optional leading plus sign followed by at least one ASCII digit, with
values at or above 2^64 rejected as overflow. -/
def parse_u64 (s : String) : Option Nat :=
  let ds := match s.data with
    | '+' :: rest => rest
    | l => l
  if ds.isEmpty then none
  else if ds.all Char.isDigit then
    let v := ds.foldl (fun a c => a * 10 + (c.toNat - 48)) 0
    if v < 18446744073709551616 then some v else none
  else none

/-- Lawfulness of a comparator: the facts about `Ordering`-valued comparison
functions needed to reason about sortedness (antisymmetry via `swap`, and
transitivity of the strict and equal cases). -/
structure IsLinearCmp {α : Type} (c : α → α → Ordering) : Prop where
  symm : ∀ a b, c a b = (c b a).swap
  lt_trans : ∀ {a b d}, c a b = .lt → c b d = .lt → c a d = .lt
  eq_trans : ∀ {a b d}, c a b = .eq → c b d = .eq → c a d = .eq
  lt_of_lt_of_eq : ∀ {a b d}, c a b = .lt → c b d = .eq → c a d = .lt
  lt_of_eq_of_lt : ∀ {a b d}, c a b = .eq → c b d = .lt → c a d = .lt

/-- The non-strict relation induced by a comparator ("not greater"). -/
def cmpLE {α : Type} (c : α → α → Ordering) (a b : α) : Prop := c a b ≠ .gt

instance {α : Type} (c : α → α → Ordering) (a b : α) : Decidable (cmpLE c a b) := by
  unfold cmpLE; infer_instance

/-- Sortedness of a sequence with respect to a comparator: no adjacent (in
fact no in-order) pair compares `Greater`, as required by the spec's
`OrderedCollection` invariant. -/
def sortedBy {α : Type} (c : α → α → Ordering) (l : List α) : Prop :=
  l.Pairwise (cmpLE c)

instance {α : Type} (c : α → α → Ordering) (l : List α) : Decidable (sortedBy c l) := by
  unfold sortedBy; infer_instance

/-- Insertion of an element into a comparator-sorted list, before the first
element that is not strictly less.  This is the result of the source's
`binary_search_by(...).unwrap_or_else(|i| i)` followed by `Vec::insert` on a
sorted input (Rust's binary search returns either the first partition point
or an unspecified index inside a run of `Equal` elements; on sorted input
inserting at the first non-less position is such an admissible result). -/
def insertOrd {α : Type} (c : α → α → Ordering) (y : α) : List α → List α
  | [] => [y]
  | x :: xs => if c x y = .lt then x :: insertOrd c y xs else y :: x :: xs

/-- The insertion point computed by the binary search: the number of leading
elements that compare strictly less than the probe. -/
def insertion_index {α : Type} (f : α → Ordering) : List α → Nat
  | [] => 0
  | x :: xs => if f x = .lt then insertion_index f xs + 1 else 0

/-- Model of `Vec::insert` at an index (the index is at most the length in
all uses). -/
def insertAt {α : Type} (a : α) : Nat → List α → List α
  | 0, l => a :: l
  | _ + 1, [] => [a]
  | n + 1, x :: xs => x :: insertAt a n xs

/-- Model of Rust `slice::sort_by`: a stable sort by the comparator,
rendered as insertion sort (for a lawful comparator the stable-sorted
permutation is unique, so this is extensionally the library sort). -/
def sort_by {α : Type} (c : α → α → Ordering) : List α → List α
  | [] => []
  | x :: xs => insertOrd c x (sort_by c xs)

/-- Model of `ratatui::style::Color` (the variants of the source enum). -/
inductive Color
  | Reset
  | Black
  | Red
  | Green
  | Yellow
  | Blue
  | Magenta
  | Cyan
  | Gray
  | DarkGray
  | LightRed
  | LightGreen
  | LightYellow
  | LightBlue
  | LightMagenta
  | LightCyan
  | White
  | Rgb (r g b : Nat)
  | Indexed (i : Nat)
deriving DecidableEq

/-- Hex value of an ASCII hex digit character, if any. -/
def hexVal (c : Char) : Option Nat :=
  if 48 ≤ c.toNat ∧ c.toNat ≤ 57 then some (c.toNat - 48)
  else if 97 ≤ c.toNat ∧ c.toNat ≤ 102 then some (c.toNat - 87)
  else if 65 ≤ c.toNat ∧ c.toNat ≤ 70 then some (c.toNat - 55)
  else none

/-- Model of `ratatui`'s `FromStr for Color` (external crate, modelled from
its documented behaviour): a case-insensitive colour name, a `#rrggbb` hex
triplet, or an 8-bit index. -/
def Color.from_str (s : String) : Option Color :=
  match String.mk (s.data.map Char.toLower) with
  | "reset" => some .Reset
  | "black" => some .Black
  | "red" => some .Red
  | "green" => some .Green
  | "yellow" => some .Yellow
  | "blue" => some .Blue
  | "magenta" => some .Magenta
  | "cyan" => some .Cyan
  | "gray" => some .Gray
  | "grey" => some .Gray
  | "darkgray" => some .DarkGray
  | "darkgrey" => some .DarkGray
  | "lightred" => some .LightRed
  | "lightgreen" => some .LightGreen
  | "lightyellow" => some .LightYellow
  | "lightblue" => some .LightBlue
  | "lightmagenta" => some .LightMagenta
  | "lightcyan" => some .LightCyan
  | "white" => some .White
  | _ =>
    match s.data with
    | '#' :: r1 :: r2 :: g1 :: g2 :: b1 :: b2 :: [] =>
      match hexVal r1, hexVal r2, hexVal g1, hexVal g2, hexVal b1, hexVal b2 with
      | some a1, some a2, some a3, some a4, some a5, some a6 =>
        some (.Rgb (16 * a1 + a2) (16 * a3 + a4) (16 * a5 + a6))
      | _, _, _, _, _, _ => none
    | _ =>
      match parse_u64 s with
      | some n => if n < 256 then some (.Indexed n) else none
      | none => none

/-- Lower-case hex digit character for a value below 16. -/
def hexChar (n : Nat) : Char :=
  if n < 10 then Char.ofNat (48 + n) else Char.ofNat (87 + n)

/-- Two lower-case hex digits of a byte, zero-padded: the source's
`format!("\x7b:0>2x\x7d", _)` on a `u8`. -/
def hex2 (n : Nat) : String := ⟨[hexChar (n / 16 % 16), hexChar (n % 16)]⟩

/-- Model of `ratatui`'s `Display for Color` (external crate), used only to
read back a previously accepted colour as text. -/
def Color.show : Color → String
  | .Reset => "Reset"
  | .Black => "Black"
  | .Red => "Red"
  | .Green => "Green"
  | .Yellow => "Yellow"
  | .Blue => "Blue"
  | .Magenta => "Magenta"
  | .Cyan => "Cyan"
  | .Gray => "Gray"
  | .DarkGray => "DarkGray"
  | .LightRed => "LightRed"
  | .LightGreen => "LightGreen"
  | .LightYellow => "LightYellow"
  | .LightBlue => "LightBlue"
  | .LightMagenta => "LightMagenta"
  | .LightCyan => "LightCyan"
  | .White => "White"
  | .Rgb r g b => "#" ++ hex2 r ++ hex2 g ++ hex2 b
  | .Indexed i => Nat.repr i

/-- The `Item` capability trait of src/mods.rs: identifier, field patching
and the collection order. -/
class Item (T : Type) where
  identifier : T → String
  patch : T → T → T
  vec_order : T → T → Ordering

/-- The `Tag` record of src/mods.rs. -/
structure Tag where
  name : String
  score : Nat
  color : Color
deriving DecidableEq

/-- `<Tag as Item>::patch`: keep the name, overwrite score and colour. -/
def Tag.patch (s other : Tag) : Tag :=
  { s with score := other.score, color := other.color }

/-- `<Tag as Item>::vec_order`: score ascending, ties by name ascending. -/
def Tag.vec_order (a b : Tag) : Ordering :=
  (cmpv a.score b.score).then (cmpStr a.name b.name)

instance : Item Tag := ⟨Tag.name, Tag.patch, Tag.vec_order⟩

/-- The fields of `ModMetaData` (src/mods/game.rs) that the core reads; the
remaining fields are only deserialized and rendered, never consulted by the
ordering or upsert logic. -/
structure ModMetaData where
  name : String
  package_id : String
deriving DecidableEq

/-- The internally ordered container `OrderedVec<T>` of src/mods.rs. -/
structure OrderedVec (T : Type) where
  data : List T
deriving DecidableEq

/-- The `Mod` record of src/mods.rs. -/
structure Mod where
  metadata : ModMetaData
  tags : OrderedVec Tag
deriving DecidableEq

/-- `<Mod as Item>::patch`: wholesale replacement (`*self = other`). -/
def Mod.patch (_s other : Mod) : Mod := other

/-- `<Mod as Item>::vec_order`: untagged mods sort after tagged ones;
between two tagged (or two untagged) mods the tag score sequences are
compared lexicographically, ties broken by mod name. -/
def Mod.vec_order (a b : Mod) : Ordering :=
  match a.tags.data.head?, b.tags.data.head? with
  | none, none => cmpStr a.metadata.name b.metadata.name
  | none, some _ => .gt
  | some _, none => .lt
  | some _, some _ =>
    match cmpList cmpv (a.tags.data.map Tag.score) (b.tags.data.map Tag.score) with
    | .eq => cmpStr a.metadata.name b.metadata.name
    | o => o

instance : Item Mod := ⟨fun m => m.metadata.package_id, Mod.patch, Mod.vec_order⟩

/-- `OrderedVec::get_by_name`. -/
def OrderedVec.get_by_name {T : Type} [Item T] (v : OrderedVec T) (name : String) : Option T :=
  v.data.find? (fun item => Item.identifier item == name)

/-- The in-place patch performed through `get_mut_by_name` in
`OrderedVec::upsert`: patch the first element with a matching identifier. -/
def patchFirst {T : Type} [Item T] : List T → T → List T
  | [], _ => []
  | x :: xs, other =>
    if Item.identifier x == Item.identifier other then Item.patch x other :: xs
    else x :: patchFirst xs other

/-- `OrderedVec::upsert`: patch the first element with the same identifier
if one exists, otherwise insert at the binary-search insertion point. -/
def OrderedVec.upsert {T : Type} [Item T] (v : OrderedVec T) (other : T) : OrderedVec T :=
  if v.data.any (fun t => Item.identifier t == Item.identifier other) then
    ⟨patchFirst v.data other⟩
  else
    ⟨insertAt other (insertion_index (fun curr => Item.vec_order curr other) v.data) v.data⟩

/-- `OrderedVec::len`. -/
def OrderedVec.len {T : Type} (v : OrderedVec T) : Nat := v.data.length

/-- `OrderedVec::is_empty`. -/
def OrderedVec.is_empty {T : Type} (v : OrderedVec T) : Bool := v.data.isEmpty

/-- `OrderedVec::get` at a single index. -/
def OrderedVec.get {T : Type} (v : OrderedVec T) (i : Nat) : Option T := v.data[i]?

/-- `From<Vec<T>> for OrderedVec<T>`: sort the initial unordered sequence. -/
def OrderedVec.ofVec {T : Type} [Item T] (value : List T) : OrderedVec T :=
  ⟨sort_by Item.vec_order value⟩

/-- `OrderedVec<Mod>::upsert_tag_to`: upsert the tag into the mod at the
index (`unwrap` on a bad index modelled as `none`), then re-sort the whole
mod collection. -/
def OrderedVec.upsert_tag_to (v : OrderedVec Mod) (mod_idx : Nat) (tag : Tag) :
    Option (OrderedVec Mod) :=
  match v.data[mod_idx]? with
  | none => none
  | some md =>
    some ⟨sort_by Mod.vec_order (v.data.set mod_idx { md with tags := md.tags.upsert tag })⟩

/-- The `FormPoll` outcome of a field submission (src/app/widgets/form.rs). -/
inductive FormPoll (T : Type)
  | NextField
  | Invalid
  | Done (v : T)
deriving DecidableEq

/-- The `TagForm` field specification of the tag-creation form
(src/app/widgets/form.rs): accumulated name, score and colour. -/
structure TagForm where
  name : String
  score : Option Nat
  color : Color
deriving DecidableEq

/-- `TagForm::try_into_key`: validate the text of one field and accumulate
its value.  Field 0 is the name (non-empty after trimming), field 1 the
score (a `u64`), field 2 the colour (parseable); the fallthrough arm and a
`Done` without an accepted score hit `Option::unwrap`, modelled as `none`. -/
def TagForm.try_into_key (f : TagForm) (key : Nat) (content : String) :
    Option (TagForm × FormPoll Tag) :=
  match key with
  | 0 =>
    if (str_trim content).data.isEmpty then some (f, .Invalid)
    else some ({ f with name := str_trim content }, .NextField)
  | 1 =>
    match parse_u64 (str_trim content) with
    | some n => some ({ f with score := some n }, .NextField)
    | none => some (f, .Invalid)
  | 2 =>
    match Color.from_str content with
    | some c =>
      match f.score with
      | some sc => some ({ f with color := c }, .Done ⟨f.name, sc, c⟩)
      | none => none
    | none => some (f, .Invalid)
  | _ =>
    match f.score with
    | some sc => some (f, .Done ⟨f.name, sc, f.color⟩)
    | none => none

/-- `TagForm::read_key`: the previously accepted value of a field, if any. -/
def TagForm.read_key (f : TagForm) (key : Nat) : Option String :=
  match key with
  | 0 => if f.name.data.isEmpty then none else some f.name
  | 1 => f.score.map (fun v => Nat.repr v)
  | 2 => some f.color.show
  | _ => none

/-- The `FormState` of src/app/widgets/form.rs restricted to its logical
fields; `background_color` and `cursor_pos` are render geometry and are
never read by the transition logic. -/
structure FormState where
  selected_color : Color
  curr_buff : String
  index : Nat
  spec : TagForm
deriving DecidableEq

/-- `FormState::next`: submit the current field.  On `NextField` the field
index advances and the buffer is preloaded from `read_key` (or cleared when
there is no prior value); on `Invalid` or `Done` the index and buffer are
untouched. -/
def FormState.next (s : FormState) : Option (FormState × FormPoll Tag) :=
  match s.spec.try_into_key s.index s.curr_buff with
  | none => none
  | some (spec', res) =>
    match res with
    | .NextField =>
      match spec'.read_key (s.index + 1) with
      | some nxt => some ({ s with spec := spec', index := s.index + 1, curr_buff := nxt }, .NextField)
      | none => some ({ s with spec := spec', index := s.index + 1, curr_buff := "" }, .NextField)
    | r => some ({ s with spec := spec' }, r)

/-- The interaction modes of src/app.rs. -/
inductive Mode
  | Normal
  | CreateTag
  | ShowTags
  | Insert
deriving DecidableEq

/-- The movement directions of src/app.rs. -/
inductive MoveDirection
  | Up
  | Down
  | Left
  | Right
deriving DecidableEq

/-- An abstract text edit applied to the input buffer; models the events
forwarded to `tui_input::Input::handle_event` (external crate) with the
cursor at the end of the buffer. -/
inductive InputEdit
  | char (c : Char)
  | backspace
  | other
deriving DecidableEq

/-- Effect of an abstract edit on the buffer text. -/
def applyEdit (s : String) (e : InputEdit) : String :=
  match e with
  | .char c => s.push c
  | .backspace => ⟨s.data.dropLast⟩
  | .other => s

/-- The `Message` enum of src/app.rs (the event payload of
`PropagateEvent` abstracted to the buffer edit it performs). -/
inductive Message
  | ClearCommand
  | AppendMovement (c : Char)
  | MoveDirection (d : MoveDirection)
  | PropagateEvent (e : InputEdit)
  | NextField
  | InsertTag
  | ChangeMode (m : Mode)
  | Exit
deriving DecidableEq

/-- The `Persistent` catalogue of src/app.rs. -/
structure Persistent where
  mods : OrderedVec Mod
  tags : OrderedVec Tag
deriving DecidableEq

/-- `Persistent::default`: an empty catalogue (`vec![].into()` and the
default empty tag collection). -/
def Persistent.default : Persistent := ⟨OrderedVec.ofVec [], ⟨[]⟩⟩

/-- The `Model` of src/app.rs.  `table_state` and `list_state` are the
selection cursors of the item table and the tag list (the only part of the
ratatui widget states the logic reads); `input_buffer` is the text value of
the `tui_input` buffer. -/
structure Model where
  should_close : Bool
  current_mode : Mode
  movement_delta : String
  input_buffer : String
  input_collection : List (String × String)
  input_index : Nat
  input_special : Color
  table_state : Option Nat
  list_state : Option Nat
  persistent : Persistent
deriving DecidableEq

/-- `Model::default` (the `Default` derive: every field default). -/
def Model.default : Model :=
  ⟨false, .Normal, "", "", [], 0, .Reset, none, none, Persistent.default⟩

/-- Insertion into the `input_collection` map (`HashMap::insert`,
replacing any previous binding of the key). -/
def mapInsert (m : List (String × String)) (k v : String) : List (String × String) :=
  (k, v) :: m.filter (fun kv => kv.1 != k)

/-- Lookup in the `input_collection` map (`HashMap::get`). -/
def mapGet (m : List (String × String)) (k : String) : Option String :=
  (m.find? (fun kv => kv.1 == k)).map Prod.snd

/-- `Model::set_persistent` (src/app.rs lines 78-86).  Note that, exactly as
in the source, BOTH selection guards test `p.mods.is_empty()`: the tag-list
cursor is selected based on the emptiness of the mod collection, not of the
tag collection. -/
def Model.set_persistent (m : Model) (p : Persistent) : Model :=
  let m1 := if p.mods.is_empty then m else { m with table_state := some 0 }
  let m2 := if p.mods.is_empty then m1 else { m1 with list_state := some 0 }
  { m2 with persistent := p }

/-- `Model::update` (src/app.rs).  The `rng` oracle supplies the RGB triple
drawn by `random_color()` when entering `CreateTag` (each component is a
`u8`, hence the reduction mod 256); `none` models a panic via `unwrap`. -/
def Model.update (m : Model) (msg : Message) (rng : Nat × Nat × Nat) :
    Option (Model × Option Message) :=
  match msg with
  | .ClearCommand => some ({ m with movement_delta := "" }, none)
  | .AppendMovement c => some ({ m with movement_delta := m.movement_delta.push c }, none)
  | .MoveDirection dir =>
    let d := (parse_u64 m.movement_delta).getD 1
    let m' :=
      match m.current_mode with
      | .Normal =>
        { m with table_state := m.table_state.map (fun s =>
            match dir with
            | .Up => s - d
            | .Down => min (s + d) (m.persistent.mods.len - 1)
            | .Left => s - d
            | .Right => min (s + d) (m.persistent.mods.len - 1)) }
      | .Insert =>
        { m with list_state := m.list_state.map (fun s =>
            match dir with
            | .Up => s - d
            | .Down => min (s + d) (m.persistent.tags.len - 1)
            | .Left => s - d
            | .Right => min (s + d) (m.persistent.tags.len - 1)) }
      | _ => m
    some (m', some .ClearCommand)
  | .PropagateEvent e =>
    let m' := { m with input_buffer := applyEdit m.input_buffer e }
    let m'' :=
      match (mapGet m'.input_collection "Color").bind Color.from_str with
      | some c => { m' with input_special := c }
      | none => m'
    some (m'', none)
  | .InsertTag =>
    match m.list_state with
    | none => none
    | some j =>
      match m.persistent.tags.get j with
      | none => none
      | some tag =>
        let m' := { m with list_state := some 0 }
        match m'.table_state with
        | none => none
        | some i =>
          match m'.persistent.mods.upsert_tag_to i tag with
          | none => none
          | some mods' =>
            some ({ m' with persistent := { m'.persistent with mods := mods' } },
              some (.ChangeMode .Normal))
  | .NextField =>
    if m.current_mode = .CreateTag then
      match m.input_index with
      | 0 =>
        if m.input_buffer.data.isEmpty then some (m, none)
        else
          some ({ m with
            input_collection := mapInsert m.input_collection "Name" m.input_buffer,
            input_buffer := "",
            input_index := m.input_index + 1 }, none)
      | 1 =>
        match parse_u64 m.input_buffer with
        | some _ =>
          some ({ m with
            input_collection := mapInsert m.input_collection "Score" m.input_buffer,
            input_buffer := "",
            input_index := m.input_index + 1 }, none)
        | none => some (m, none)
      | _ =>
        match Color.from_str m.input_buffer with
        | none => some (m, none)
        | some color =>
          let coll := mapInsert m.input_collection "Color" m.input_buffer
          match mapGet coll "Name", (mapGet coll "Score").bind parse_u64 with
          | some nm, some sc =>
            some ({ m with
              input_collection := [],
              input_buffer := "",
              input_index := 0,
              list_state := some 0,
              persistent := { m.persistent with
                tags := m.persistent.tags.upsert ⟨nm, sc, color⟩ } },
              some (.ChangeMode .Normal))
          | _, _ => none
    else some (m, none)
  | .ChangeMode mode =>
    let m' :=
      if mode = .CreateTag then
        let r := rng.1 % 256
        let g := rng.2.1 % 256
        let b := rng.2.2 % 256
        { m with
          input_collection := mapInsert [] "Color" ("#" ++ hex2 r ++ hex2 g ++ hex2 b),
          input_special := .Rgb r g b }
      else m
    some ({ m' with current_mode := mode }, some .ClearCommand)
  | .Exit => some ({ m with should_close := true }, none)

/-- The host loop of src/main.rs (`while msg.is_some() ...`): apply a
message and then every follow-up message until none remains.  The fuel
bounds the chain length (no chain in the source exceeds three steps);
`none` propagates a panic inside `update`. -/
def Model.run : Nat → Model → Option Message → (Nat × Nat × Nat) → Option Model
  | _, m, none, _ => some m
  | 0, _, some _, _ => none
  | n + 1, m, some msg, rng =>
    match m.update msg rng with
    | none => none
    | some (m', next) => Model.run n m' next rng

/-- The "Core" tag of the spec's ordering example (score 0). -/
def coreTag : Tag := ⟨"Core", 0, .Reset⟩

/-- The "Quality" tag of the spec's ordering example (score 5). -/
def qualityTag : Tag := ⟨"Quality", 5, .Reset⟩

/-- Item A of the spec's ordering example: single tag Quality. -/
def itemA : Mod := ⟨⟨"A", "pkg.a"⟩, OrderedVec.ofVec [qualityTag]⟩

/-- Item B of the spec's ordering example: single tag Core. -/
def itemB : Mod := ⟨⟨"B", "pkg.b"⟩, OrderedVec.ofVec [coreTag]⟩

/-- Item C of the spec's ordering example: no tags. -/
def itemC : Mod := ⟨⟨"C", "pkg.c"⟩, OrderedVec.ofVec []⟩

/-- The tag catalogue of the spec's ordering example. -/
def scenarioTags : OrderedVec Tag := OrderedVec.ofVec [coreTag, qualityTag]

/-- A mod with no tags, used as a one-element item catalogue. -/
def soloMod : Mod := ⟨⟨"OnlyMod", "pkg.only"⟩, ⟨[]⟩⟩

/-- A catalogue with one mod and no tags. -/
def pModsOnly : Persistent := ⟨OrderedVec.ofVec [soloMod], ⟨[]⟩⟩

/-- A single tag, used as a one-element tag catalogue. -/
def soloTag : Tag := ⟨"Solo", 1, .Reset⟩

/-- A catalogue with no mods and one tag. -/
def pTagsOnly : Persistent := ⟨OrderedVec.ofVec [], OrderedVec.ofVec [soloTag]⟩

/-- A model in Insert mode with both cursors on index 0, two mods and one
tag, used to instantiate the Insert-mode confirm theorem. -/
def M6 : Model :=
  { Model.default with
    current_mode := .Insert,
    table_state := some 0,
    list_state := some 0,
    persistent := ⟨OrderedVec.ofVec [soloMod, itemB], OrderedVec.ofVec [qualityTag]⟩ }

/-- A model in Normal mode with five mods, the cursor on index 0 and the
pending repeat buffer holding "3", used to instantiate the movement
theorem. -/
def M7 : Model :=
  { Model.default with
    movement_delta := "3",
    table_state := some 0,
    persistent :=
      ⟨OrderedVec.ofVec
        [⟨⟨"m1", "p1"⟩, ⟨[]⟩⟩, ⟨⟨"m2", "p2"⟩, ⟨[]⟩⟩, ⟨⟨"m3", "p3"⟩, ⟨[]⟩⟩,
         ⟨⟨"m4", "p4"⟩, ⟨[]⟩⟩, ⟨⟨"m5", "p5"⟩, ⟨[]⟩⟩], ⟨[]⟩⟩ }

/-- A model captured after a tag-creation session was abandoned from the
score field: the accepted name is in the collection, the field index is 1
and the live buffer still holds the half-typed score. -/
def M8 : Model :=
  { Model.default with
    input_index := 1,
    input_buffer := "123",
    input_collection := [("Name", "Al")] }

/-- A fresh form state whose buffer holds only whitespace. -/
def F9a : FormState := ⟨.Reset, "  ", 0, ⟨"", none, .Reset⟩⟩

/-- A fresh form state whose buffer holds a valid name. -/
def F9b : FormState := ⟨.Reset, " Alpha ", 0, ⟨"", none, .Reset⟩⟩

/-- A tag collection with two tags, used to instantiate the upsert
theorems. -/
def V2 : OrderedVec Tag := OrderedVec.ofVec [⟨"B", 2, .Reset⟩, ⟨"A", 1, .Reset⟩]

/-- A mod carrying one tag, to exhibit that a mod-level upsert discards the
stored tags. -/
def taggedMod : Mod := ⟨⟨"OnlyMod", "pkg.only"⟩, OrderedVec.ofVec [coreTag]⟩

/-- An item collection containing `taggedMod`. -/
def V10 : OrderedVec Mod := OrderedVec.ofVec [taggedMod]

/-! ## Ordering and comparator lemmas -/

/-- Swapping distributes over `Ordering.then`. -/
theorem then_swap : ∀ x y : Ordering, (x.then y).swap = x.swap.then y.swap := by
  intro x y; cases x <;> cases y <;> decide

/-- Characterization of a `lt` result of `Ordering.then`. -/
theorem then_eq_lt : ∀ x y : Ordering, x.then y = .lt ↔ (x = .lt ∨ (x = .eq ∧ y = .lt)) := by
  intro x y; cases x <;> cases y <;> decide

/-- Characterization of an `eq` result of `Ordering.then`. -/
theorem then_eq_eq : ∀ x y : Ordering, x.then y = .eq ↔ (x = .eq ∧ y = .eq) := by
  intro x y; cases x <;> cases y <;> decide

/-- A swapped ordering is `gt` exactly when the original is `lt`. -/
theorem swap_eq_gt : ∀ o : Ordering, o.swap = .gt ↔ o = .lt := by
  intro o; cases o <;> decide

/-- A swapped ordering differs from `gt` exactly when the original differs
from `lt`. -/
theorem swap_ne_gt : ∀ o : Ordering, o.swap ≠ .gt ↔ o ≠ .lt := by
  intro o; cases o <;> decide

/-- Transitivity of the non-strict relation of a lawful comparator. -/
theorem IsLinearCmp.le_trans {α : Type} {c : α → α → Ordering} (h : IsLinearCmp c)
    {a b d : α} (h1 : c a b ≠ .gt) (h2 : c b d ≠ .gt) : c a d ≠ .gt := by
  cases e1 : c a b with
  | gt => exact absurd e1 h1
  | lt =>
    cases e2 : c b d with
    | gt => exact absurd e2 h2
    | lt => simp [h.lt_trans e1 e2]
    | eq => simp [h.lt_of_lt_of_eq e1 e2]
  | eq =>
    cases e2 : c b d with
    | gt => exact absurd e2 h2
    | lt => simp [h.lt_of_eq_of_lt e1 e2]
    | eq => simp [h.eq_trans e1 e2]

/-- A lawful comparator that does not return `lt` yields "not greater" in
the reversed direction. -/
theorem IsLinearCmp.le_of_not_lt {α : Type} {c : α → α → Ordering} (h : IsLinearCmp c)
    {a b : α} (hab : c a b ≠ .lt) : c b a ≠ .gt := by
  have hs := h.symm a b
  intro hgt
  rw [hgt] at hs
  exact hab (by simpa [Ordering.swap] using hs)

/-- Totality of the non-strict relation of a lawful comparator. -/
theorem IsLinearCmp.le_total {α : Type} {c : α → α → Ordering} (h : IsLinearCmp c)
    (a b : α) : c a b ≠ .gt ∨ c b a ≠ .gt := by
  cases e : c a b with
  | lt => exact Or.inl (by simp [e])
  | eq => exact Or.inl (by simp [e])
  | gt =>
    refine Or.inr (h.le_of_not_lt ?_)
    simp [e]

/-- A comparator pointwise equal to a lawful one is lawful. -/
theorem IsLinearCmp.congr {α : Type} {c c' : α → α → Ordering}
    (hcc : ∀ a b, c a b = c' a b) (h : IsLinearCmp c) : IsLinearCmp c' where
  symm a b := by rw [← hcc, ← hcc]; exact h.symm a b
  lt_trans e1 e2 := by rw [← hcc] at e1 e2 ⊢; exact h.lt_trans e1 e2
  eq_trans e1 e2 := by rw [← hcc] at e1 e2 ⊢; exact h.eq_trans e1 e2
  lt_of_lt_of_eq e1 e2 := by rw [← hcc] at e1 e2 ⊢; exact h.lt_of_lt_of_eq e1 e2
  lt_of_eq_of_lt e1 e2 := by rw [← hcc] at e1 e2 ⊢; exact h.lt_of_eq_of_lt e1 e2

/-- Pulling a lawful comparator back along a function keeps it lawful. -/
theorem IsLinearCmp.comap {α β : Type} {c : β → β → Ordering} (h : IsLinearCmp c)
    (f : α → β) : IsLinearCmp (fun a b => c (f a) (f b)) where
  symm a b := h.symm (f a) (f b)
  lt_trans e1 e2 := h.lt_trans e1 e2
  eq_trans e1 e2 := h.eq_trans e1 e2
  lt_of_lt_of_eq e1 e2 := h.lt_of_lt_of_eq e1 e2
  lt_of_eq_of_lt e1 e2 := h.lt_of_eq_of_lt e1 e2

/-- `cmpv` returns `lt` exactly on strictly smaller inputs. -/
theorem cmpv_eq_lt {α : Type} [LinearOrder α] {a b : α} : cmpv a b = .lt ↔ a < b := by
  unfold cmpv
  rcases lt_trichotomy a b with h | h | h
  · simp [h]
  · subst h; simp [lt_irrefl]
  · simp [lt_asymm h, h.ne']

/-- `cmpv` returns `eq` exactly on equal inputs. -/
theorem cmpv_eq_eq {α : Type} [LinearOrder α] {a b : α} : cmpv a b = .eq ↔ a = b := by
  unfold cmpv
  rcases lt_trichotomy a b with h | h | h
  · simp [h, h.ne]
  · subst h; simp [lt_irrefl]
  · simp [lt_asymm h, h.ne']

/-- `cmpv` returns `gt` exactly on strictly greater inputs. -/
theorem cmpv_eq_gt {α : Type} [LinearOrder α] {a b : α} : cmpv a b = .gt ↔ b < a := by
  unfold cmpv
  rcases lt_trichotomy a b with h | h | h
  · simp [h, lt_asymm h]
  · subst h; simp [lt_irrefl]
  · simp [lt_asymm h, h.ne', h]

/-- `cmpv` is a lawful comparator. -/
theorem cmpv_lawful {α : Type} [LinearOrder α] : IsLinearCmp (cmpv (α := α)) where
  symm a b := by
    rcases lt_trichotomy a b with h | h | h
    · rw [cmpv_eq_lt.mpr h, cmpv_eq_gt.mpr h]; rfl
    · rw [cmpv_eq_eq.mpr h, cmpv_eq_eq.mpr h.symm]; rfl
    · rw [cmpv_eq_gt.mpr h, cmpv_eq_lt.mpr h]; rfl
  lt_trans e1 e2 := cmpv_eq_lt.mpr (lt_trans (cmpv_eq_lt.mp e1) (cmpv_eq_lt.mp e2))
  eq_trans e1 e2 := cmpv_eq_eq.mpr ((cmpv_eq_eq.mp e1).trans (cmpv_eq_eq.mp e2))
  lt_of_lt_of_eq e1 e2 := cmpv_eq_lt.mpr ((cmpv_eq_eq.mp e2) ▸ cmpv_eq_lt.mp e1)
  lt_of_eq_of_lt e1 e2 := cmpv_eq_lt.mpr ((cmpv_eq_eq.mp e1) ▸ cmpv_eq_lt.mp e2)

/-- Composing two lawful comparators with `Ordering.then` is lawful. -/
theorem IsLinearCmp.then_lawful {α : Type} {c1 c2 : α → α → Ordering}
    (h1 : IsLinearCmp c1) (h2 : IsLinearCmp c2) :
    IsLinearCmp (fun a b => (c1 a b).then (c2 a b)) where
  symm a b := by
    rw [h1.symm a b, h2.symm a b, ← then_swap]
  lt_trans {a b d} e1 e2 := by
    rcases (then_eq_lt _ _).mp e1 with ha | ⟨ha, ha2⟩ <;>
      rcases (then_eq_lt _ _).mp e2 with hb | ⟨hb, hb2⟩
    · exact (then_eq_lt _ _).mpr (Or.inl (h1.lt_trans ha hb))
    · exact (then_eq_lt _ _).mpr (Or.inl (h1.lt_of_lt_of_eq ha hb))
    · exact (then_eq_lt _ _).mpr (Or.inl (h1.lt_of_eq_of_lt ha hb))
    · exact (then_eq_lt _ _).mpr (Or.inr ⟨h1.eq_trans ha hb, h2.lt_trans ha2 hb2⟩)
  eq_trans {a b d} e1 e2 := by
    obtain ⟨ha, ha2⟩ := (then_eq_eq _ _).mp e1
    obtain ⟨hb, hb2⟩ := (then_eq_eq _ _).mp e2
    exact (then_eq_eq _ _).mpr ⟨h1.eq_trans ha hb, h2.eq_trans ha2 hb2⟩
  lt_of_lt_of_eq {a b d} e1 e2 := by
    obtain ⟨hb, hb2⟩ := (then_eq_eq _ _).mp e2
    rcases (then_eq_lt _ _).mp e1 with ha | ⟨ha, ha2⟩
    · exact (then_eq_lt _ _).mpr (Or.inl (h1.lt_of_lt_of_eq ha hb))
    · exact (then_eq_lt _ _).mpr (Or.inr ⟨h1.eq_trans ha hb, h2.lt_of_lt_of_eq ha2 hb2⟩)
  lt_of_eq_of_lt {a b d} e1 e2 := by
    obtain ⟨ha, ha2⟩ := (then_eq_eq _ _).mp e1
    rcases (then_eq_lt _ _).mp e2 with hb | ⟨hb, hb2⟩
    · exact (then_eq_lt _ _).mpr (Or.inl (h1.lt_of_eq_of_lt ha hb))
    · exact (then_eq_lt _ _).mpr (Or.inr ⟨h1.eq_trans ha hb, h2.lt_of_eq_of_lt ha2 hb2⟩)

/-- Antisymmetry of the lexicographic list comparator. -/
theorem cmpList_symm {α : Type} {c : α → α → Ordering} (h : IsLinearCmp c) :
    ∀ a b : List α, cmpList c a b = (cmpList c b a).swap := by
  intro a
  induction a with
  | nil => intro b; cases b <;> rfl
  | cons x xs ih =>
    intro b
    cases b with
    | nil => rfl
    | cons y ys =>
      simp only [cmpList]
      rw [h.symm x y, ih ys, ← then_swap]

/-- Transitivity of the strict case of the lexicographic list comparator. -/
theorem cmpList_lt_trans {α : Type} {c : α → α → Ordering} (h : IsLinearCmp c) :
    ∀ a b d : List α, cmpList c a b = .lt → cmpList c b d = .lt → cmpList c a d = .lt := by
  intro a
  induction a with
  | nil =>
    intro b d e1 e2
    cases b with
    | nil => simp [cmpList] at e1
    | cons y ys =>
      cases d with
      | nil => simp [cmpList] at e2
      | cons z zs => simp [cmpList]
  | cons x xs ih =>
    intro b d e1 e2
    cases b with
    | nil => simp [cmpList] at e1
    | cons y ys =>
      cases d with
      | nil => simp [cmpList] at e2
      | cons z zs =>
        simp only [cmpList] at e1 e2 ⊢
        rcases (then_eq_lt _ _).mp e1 with h1 | ⟨h1, h1b⟩ <;>
          rcases (then_eq_lt _ _).mp e2 with h2 | ⟨h2, h2b⟩
        · exact (then_eq_lt _ _).mpr (Or.inl (h.lt_trans h1 h2))
        · exact (then_eq_lt _ _).mpr (Or.inl (h.lt_of_lt_of_eq h1 h2))
        · exact (then_eq_lt _ _).mpr (Or.inl (h.lt_of_eq_of_lt h1 h2))
        · exact (then_eq_lt _ _).mpr (Or.inr ⟨h.eq_trans h1 h2, ih ys zs h1b h2b⟩)

/-- Transitivity of the equal case of the lexicographic list comparator. -/
theorem cmpList_eq_trans {α : Type} {c : α → α → Ordering} (h : IsLinearCmp c) :
    ∀ a b d : List α, cmpList c a b = .eq → cmpList c b d = .eq → cmpList c a d = .eq := by
  intro a
  induction a with
  | nil =>
    intro b d e1 e2
    cases b with
    | nil => exact e2
    | cons y ys => simp [cmpList] at e1
  | cons x xs ih =>
    intro b d e1 e2
    cases b with
    | nil => simp [cmpList] at e1
    | cons y ys =>
      cases d with
      | nil => simp [cmpList] at e2
      | cons z zs =>
        simp only [cmpList] at e1 e2 ⊢
        obtain ⟨h1, h1b⟩ := (then_eq_eq _ _).mp e1
        obtain ⟨h2, h2b⟩ := (then_eq_eq _ _).mp e2
        exact (then_eq_eq _ _).mpr ⟨h.eq_trans h1 h2, ih ys zs h1b h2b⟩

/-- A strictly smaller list stays strictly smaller than an equal one. -/
theorem cmpList_lt_of_lt_of_eq {α : Type} {c : α → α → Ordering} (h : IsLinearCmp c) :
    ∀ a b d : List α, cmpList c a b = .lt → cmpList c b d = .eq → cmpList c a d = .lt := by
  intro a
  induction a with
  | nil =>
    intro b d e1 e2
    cases b with
    | nil => simp [cmpList] at e1
    | cons y ys =>
      cases d with
      | nil => simp [cmpList] at e2
      | cons z zs => simp [cmpList]
  | cons x xs ih =>
    intro b d e1 e2
    cases b with
    | nil => simp [cmpList] at e1
    | cons y ys =>
      cases d with
      | nil => simp [cmpList] at e2
      | cons z zs =>
        simp only [cmpList] at e1 e2 ⊢
        obtain ⟨h2, h2b⟩ := (then_eq_eq _ _).mp e2
        rcases (then_eq_lt _ _).mp e1 with h1 | ⟨h1, h1b⟩
        · exact (then_eq_lt _ _).mpr (Or.inl (h.lt_of_lt_of_eq h1 h2))
        · exact (then_eq_lt _ _).mpr (Or.inr ⟨h.eq_trans h1 h2, ih ys zs h1b h2b⟩)

/-- An equal list stays strictly smaller than a strictly larger one. -/
theorem cmpList_lt_of_eq_of_lt {α : Type} {c : α → α → Ordering} (h : IsLinearCmp c) :
    ∀ a b d : List α, cmpList c a b = .eq → cmpList c b d = .lt → cmpList c a d = .lt := by
  intro a
  induction a with
  | nil =>
    intro b d e1 e2
    cases b with
    | nil => exact e2
    | cons y ys => simp [cmpList] at e1
  | cons x xs ih =>
    intro b d e1 e2
    cases b with
    | nil => simp [cmpList] at e1
    | cons y ys =>
      cases d with
      | nil => simp [cmpList] at e2
      | cons z zs =>
        simp only [cmpList] at e1 e2 ⊢
        obtain ⟨h1, h1b⟩ := (then_eq_eq _ _).mp e1
        rcases (then_eq_lt _ _).mp e2 with h2 | ⟨h2, h2b⟩
        · exact (then_eq_lt _ _).mpr (Or.inl (h.lt_of_eq_of_lt h1 h2))
        · exact (then_eq_lt _ _).mpr (Or.inr ⟨h.eq_trans h1 h2, ih ys zs h1b h2b⟩)

/-- The lexicographic list comparator over a lawful comparator is lawful. -/
theorem cmpList_lawful {α : Type} {c : α → α → Ordering} (h : IsLinearCmp c) :
    IsLinearCmp (cmpList c) where
  symm := cmpList_symm h
  lt_trans e1 e2 := cmpList_lt_trans h _ _ _ e1 e2
  eq_trans e1 e2 := cmpList_eq_trans h _ _ _ e1 e2
  lt_of_lt_of_eq e1 e2 := cmpList_lt_of_lt_of_eq h _ _ _ e1 e2
  lt_of_eq_of_lt e1 e2 := cmpList_lt_of_eq_of_lt h _ _ _ e1 e2

/-- The character comparator is lawful. -/
theorem cmpChar_lawful : IsLinearCmp cmpChar :=
  (cmpv_lawful (α := Nat)).comap Char.toNat

/-- The string comparator is lawful. -/
theorem cmpStr_lawful : IsLinearCmp cmpStr :=
  (cmpList_lawful cmpChar_lawful).comap String.data

/-- The tag order (score then name) is lawful. -/
theorem tag_vec_order_lawful : IsLinearCmp Tag.vec_order :=
  IsLinearCmp.then_lawful
    ((cmpv_lawful (α := Nat)).comap Tag.score)
    (cmpStr_lawful.comap Tag.name)

/-- The mod order written as a lexicographic composition: emptiness of the
tag list (tagged before untagged), then the score sequence, then the name.
On each constructor case this agrees with the source's `match`. -/
theorem mod_vec_order_eq (a b : Mod) :
    Mod.vec_order a b =
      (cmpv a.tags.data.isEmpty b.tags.data.isEmpty).then
        ((cmpList cmpv (a.tags.data.map Tag.score) (b.tags.data.map Tag.score)).then
          (cmpStr a.metadata.name b.metadata.name)) := by
  rcases ha : a.tags.data with _ | ⟨x, xs⟩ <;> rcases hb : b.tags.data with _ | ⟨y, ys⟩ <;>
    simp only [Mod.vec_order, ha, hb, List.head?_cons, List.head?_nil, List.isEmpty_cons,
      List.isEmpty_nil]
  · rfl
  · rfl
  · rfl
  · cases cmpList cmpv (List.map Tag.score (x :: xs)) (List.map Tag.score (y :: ys)) <;> rfl

/-- The mod order is lawful. -/
theorem mod_vec_order_lawful : IsLinearCmp Mod.vec_order := by
  refine IsLinearCmp.congr (fun a b => (mod_vec_order_eq a b).symm) ?_
  exact IsLinearCmp.then_lawful
    ((cmpv_lawful (α := Bool)).comap (fun m : Mod => m.tags.data.isEmpty))
    (IsLinearCmp.then_lawful
      ((cmpList_lawful (cmpv_lawful (α := Nat))).comap (fun m : Mod => m.tags.data.map Tag.score))
      (cmpStr_lawful.comap (fun m : Mod => m.metadata.name)))

/-! ## Sorting and upsert lemmas -/

/-- Sorted insertion is a permutation of prepending. -/
theorem insertOrd_perm {α : Type} (c : α → α → Ordering) (y : α) :
    ∀ l : List α, List.Perm (insertOrd c y l) (y :: l) := by
  intro l
  induction l with
  | nil => exact List.Perm.refl _
  | cons x xs ih =>
    simp only [insertOrd]
    split_ifs with hx
    · exact (ih.cons x).trans (List.Perm.swap y x xs)
    · exact List.Perm.refl _

/-- Sorted insertion preserves sortedness for a lawful comparator. -/
theorem insertOrd_sorted {α : Type} {c : α → α → Ordering} (h : IsLinearCmp c) (y : α) :
    ∀ l : List α, sortedBy c l → sortedBy c (insertOrd c y l) := by
  intro l
  induction l with
  | nil => intro _; simp [insertOrd, sortedBy]
  | cons x xs ih =>
    intro hs
    rw [sortedBy, List.pairwise_cons] at hs
    simp only [insertOrd]
    split_ifs with hx
    · rw [sortedBy, List.pairwise_cons]
      refine ⟨?_, ih hs.2⟩
      intro z hz
      rcases List.mem_cons.mp ((insertOrd_perm c y xs).mem_iff.mp hz) with rfl | hz
      · simp [cmpLE, hx]
      · exact hs.1 z hz
    · rw [sortedBy, List.pairwise_cons]
      have hyx : cmpLE c y x := h.le_of_not_lt hx
      refine ⟨?_, List.pairwise_cons.mpr ⟨hs.1, hs.2⟩⟩
      intro z hz
      rcases List.mem_cons.mp hz with rfl | hz
      · exact hyx
      · exact h.le_trans hyx (hs.1 z hz)

/-- The result of the sort is sorted, for a lawful comparator. -/
theorem sort_by_sorted {α : Type} {c : α → α → Ordering} (h : IsLinearCmp c) :
    ∀ l : List α, sortedBy c (sort_by c l)
  | [] => by simp [sort_by, sortedBy]
  | x :: xs => insertOrd_sorted h x _ (sort_by_sorted h xs)

/-- The sort permutes its input. -/
theorem sort_by_perm {α : Type} (c : α → α → Ordering) : ∀ l : List α, List.Perm (sort_by c l) l
  | [] => List.Perm.refl _
  | x :: xs => (insertOrd_perm c x _).trans ((sort_by_perm c xs).cons x)

/-- Inserting at the binary-search insertion point is sorted insertion. -/
theorem insertAt_insertion_index {α : Type} (c : α → α → Ordering) (y : α) :
    ∀ l : List α, insertAt y (insertion_index (fun x => c x y) l) l = insertOrd c y l := by
  intro l
  induction l with
  | nil => rfl
  | cons x xs ih =>
    simp only [insertion_index, insertOrd]
    split_ifs with hx
    · simp [insertAt, ih]
    · simp [insertAt]

/-- Patching in place preserves the length. -/
theorem patchFirst_length {T : Type} [Item T] :
    ∀ (l : List T) (other : T), (patchFirst l other).length = l.length := by
  intro l other
  induction l with
  | nil => rfl
  | cons x xs ih =>
    simp only [patchFirst]
    split_ifs <;> simp [ih]

/-- Decomposition of an in-place patch: the list splits at the first
element whose identifier matches, and only that element is replaced (by its
patch against the incoming record). -/
theorem patchFirst_decomp {T : Type} [Item T] (other : T) :
    ∀ l : List T, (∃ e ∈ l, Item.identifier e = Item.identifier other) →
      ∃ pre e post, l = pre ++ e :: post ∧
        (∀ x ∈ pre, Item.identifier x ≠ Item.identifier other) ∧
        Item.identifier e = Item.identifier other ∧
        patchFirst l other = pre ++ Item.patch e other :: post := by
  intro l
  induction l with
  | nil => intro h; simp at h
  | cons x xs ih =>
    intro h
    by_cases hx : Item.identifier x = Item.identifier other
    · exact ⟨[], x, xs, rfl, by simp, hx, by simp [patchFirst, hx]⟩
    · have h' : ∃ e ∈ xs, Item.identifier e = Item.identifier other := by
        rcases h with ⟨e, he, hee⟩
        rcases List.mem_cons.mp he with rfl | he
        · exact absurd hee hx
        · exact ⟨e, he, hee⟩
      rcases ih h' with ⟨pre, e, post, h1, h2, h3, h4⟩
      refine ⟨x :: pre, e, post, by simp [h1], ?_, h3, ?_⟩
      · intro z hz
        rcases List.mem_cons.mp hz with rfl | hz
        · exact hx
        · exact h2 z hz
      · simp [patchFirst, hx, h4]

/-- With a matching identifier present, upsert patches in place. -/
theorem upsert_exists_eq {T : Type} [Item T] (v : OrderedVec T) (other : T)
    (h : ∃ e ∈ v.data, Item.identifier e = Item.identifier other) :
    (v.upsert other).data = patchFirst v.data other := by
  have hc : v.data.any (fun t => Item.identifier t == Item.identifier other) = true := by
    simp only [List.any_eq_true, beq_iff_eq]
    exact h
  simp [OrderedVec.upsert, hc]

/-- With no matching identifier, upsert inserts at the sorted position. -/
theorem upsert_not_exists_eq {T : Type} [Item T] (v : OrderedVec T) (other : T)
    (h : ∀ e ∈ v.data, Item.identifier e ≠ Item.identifier other) :
    (v.upsert other).data = insertOrd Item.vec_order other v.data := by
  have hc : v.data.any (fun t => Item.identifier t == Item.identifier other) = false := by
    simp only [List.any_eq_false, beq_iff_eq]
    exact h
  simp [OrderedVec.upsert, hc, insertAt_insertion_index]

/-- Patching a tag collection does not change the name sequence. -/
theorem patchFirst_map_name : ∀ (l : List Tag) (t : Tag),
    (patchFirst l t).map Tag.name = l.map Tag.name := by
  intro l t
  induction l with
  | nil => rfl
  | cons x xs ih =>
    simp only [patchFirst]
    split_ifs with hx
    · simp only [List.map_cons, ih]
      rfl
    · simp [ih]

/-! ## Claim theorems -/

/-- C1 (counterexample).  The claim as stated is false on two counts: an
upsert that patches an existing tag with a new score leaves the patched
element in its old position, breaking sortedness (here upserting name "A"
with score 5 into the sorted collection of "A" score 1 and "B" score 2);
and construction from an initial sequence with a repeated name keeps both
elements, breaking identifier uniqueness. -/
theorem C1_counterexample :
    ¬ sortedBy Tag.vec_order ((V2.upsert ⟨"A", 5, .Reset⟩).data) ∧
    ¬ ((OrderedVec.ofVec (T := Tag)
        [⟨"A", 1, .Reset⟩, ⟨"A", 2, .Reset⟩]).data.map Tag.name).Nodup := by
  constructor
  · decide
  · decide

/-- C1 (amended).  Construction always sorts the sequence, and preserves
identifier uniqueness when the initial sequence has no duplicate names; an
upsert of a fresh name preserves sortedness; every upsert preserves
identifier uniqueness.  (An upsert that patches an existing name keeps the
element in place and so need not preserve sortedness.) -/
theorem C1_amended_invariants :
    (∀ xs : List Tag, sortedBy Tag.vec_order (OrderedVec.ofVec xs).data) ∧
    (∀ xs : List Tag, (xs.map Tag.name).Nodup →
      ((OrderedVec.ofVec (T := Tag) xs).data.map Tag.name).Nodup) ∧
    (∀ (v : OrderedVec Tag) (t : Tag), sortedBy Tag.vec_order v.data →
      (∀ e ∈ v.data, e.name ≠ t.name) → sortedBy Tag.vec_order (v.upsert t).data) ∧
    (∀ (v : OrderedVec Tag) (t : Tag), (v.data.map Tag.name).Nodup →
      ((v.upsert t).data.map Tag.name).Nodup) := by
  refine ⟨?_, ?_, ?_, ?_⟩
  · intro xs
    exact sort_by_sorted tag_vec_order_lawful xs
  · intro xs h
    have hperm := (sort_by_perm (Item.vec_order (T := Tag)) xs).map Tag.name
    exact hperm.nodup_iff.mpr h
  · intro v t hs hne
    rw [upsert_not_exists_eq v t hne]
    exact insertOrd_sorted tag_vec_order_lawful t v.data hs
  · intro v t h
    by_cases hex : ∃ e ∈ v.data, e.name = t.name
    · rw [upsert_exists_eq v t hex, patchFirst_map_name]
      exact h
    · push_neg at hex
      rw [upsert_not_exists_eq v t hex]
      have hperm := (insertOrd_perm (Item.vec_order (T := Tag)) t v.data).map Tag.name
      rw [hperm.nodup_iff]
      refine List.nodup_cons.mpr ⟨?_, h⟩
      intro hmem
      rcases List.mem_map.mp hmem with ⟨e, he, hee⟩
      exact hex e he hee

/-- C1 (witness): the amended invariants applied to concrete inputs. -/
theorem C1_witness :
    sortedBy Tag.vec_order (OrderedVec.ofVec [⟨"B", 2, .Reset⟩, ⟨"A", 1, .Reset⟩]).data ∧
    ((OrderedVec.ofVec (T := Tag)
      [⟨"B", 2, .Reset⟩, ⟨"A", 1, .Reset⟩]).data.map Tag.name).Nodup ∧
    sortedBy Tag.vec_order (V2.upsert ⟨"C", 3, .Reset⟩).data ∧
    ((V2.upsert ⟨"C", 3, .Reset⟩).data.map Tag.name).Nodup :=
  ⟨C1_amended_invariants.1 _,
   C1_amended_invariants.2.1 _ (by decide),
   C1_amended_invariants.2.2.1 V2 _ (by decide) (by decide),
   C1_amended_invariants.2.2.2 V2 _ (by decide)⟩

/-- C2.  Upserting a tag whose name is already present keeps the length and
replaces exactly the first matching element, keeping its name and
overwriting score and colour with the incoming values; upserting a fresh
name inserts the tag exactly once, increasing the length by one. -/
theorem C2_upsert_semantics (v : OrderedVec Tag) (t : Tag) :
    ((∃ e ∈ v.data, e.name = t.name) →
      (v.upsert t).len = v.len ∧
      ∃ pre e post, v.data = pre ++ e :: post ∧
        (∀ x ∈ pre, x.name ≠ t.name) ∧ e.name = t.name ∧
        (v.upsert t).data = pre ++ (⟨e.name, t.score, t.color⟩ : Tag) :: post) ∧
    ((∀ e ∈ v.data, e.name ≠ t.name) →
      (v.upsert t).len = v.len + 1 ∧
      (v.upsert t).data.countP (fun e => e.name == t.name) = 1 ∧
      t ∈ (v.upsert t).data) := by
  constructor
  · intro hex
    have hdata := upsert_exists_eq v t hex
    constructor
    · rw [OrderedVec.len, OrderedVec.len, hdata, patchFirst_length]
    · rcases patchFirst_decomp t v.data hex with ⟨pre, e, post, h1, h2, h3, h4⟩
      exact ⟨pre, e, post, h1, h2, h3, by rw [hdata, h4]; rfl⟩
  · intro hne
    have heq := upsert_not_exists_eq v t hne
    have hperm : List.Perm (v.upsert t).data (t :: v.data) := by
      rw [heq]; exact insertOrd_perm _ t v.data
    refine ⟨?_, ?_, ?_⟩
    · rw [OrderedVec.len, OrderedVec.len, hperm.length_eq]
      rfl
    · rw [hperm.countP_eq]
      have h0 : v.data.countP (fun e => e.name == t.name) = 0 := by
        rw [List.countP_eq_zero]
        intro e he
        simp only [beq_iff_eq]
        exact hne e he
      simp [List.countP_cons, h0]
    · exact hperm.mem_iff.mpr (List.mem_cons_self t v.data)

/-- C2 (witness): both branches of the upsert at concrete inputs. -/
theorem C2_witness :
    ((V2.upsert ⟨"A", 7, .White⟩).len = V2.len ∧
      ∃ pre e post, V2.data = pre ++ e :: post ∧
        (∀ x ∈ pre, x.name ≠ Tag.name ⟨"A", 7, .White⟩) ∧
        e.name = Tag.name ⟨"A", 7, .White⟩ ∧
        (V2.upsert ⟨"A", 7, .White⟩).data =
          pre ++ (⟨e.name, 7, .White⟩ : Tag) :: post) ∧
    ((V2.upsert ⟨"C", 3, .Reset⟩).len = V2.len + 1 ∧
      (V2.upsert ⟨"C", 3, .Reset⟩).data.countP (fun e => e.name == "C") = 1 ∧
      (⟨"C", 3, .Reset⟩ : Tag) ∈ (V2.upsert ⟨"C", 3, .Reset⟩).data) :=
  ⟨(C2_upsert_semantics V2 ⟨"A", 7, .White⟩).1 (by decide),
   (C2_upsert_semantics V2 ⟨"C", 3, .Reset⟩).2 (by decide)⟩

/-- C3 (counterexample).  For the spec's concrete scenario (Core score 0,
Quality score 5, item A tagged Quality, item B tagged Core, item C
untagged), construction does NOT yield the order A, B, C, whatever the
order of the initial sequence. -/
theorem C3_counterexample :
    (OrderedVec.ofVec [itemA, itemB, itemC]).data.map (fun md => md.metadata.name) ≠
      ["A", "B", "C"] ∧
    (OrderedVec.ofVec [itemA, itemC, itemB]).data.map (fun md => md.metadata.name) ≠
      ["A", "B", "C"] ∧
    (OrderedVec.ofVec [itemB, itemA, itemC]).data.map (fun md => md.metadata.name) ≠
      ["A", "B", "C"] ∧
    (OrderedVec.ofVec [itemB, itemC, itemA]).data.map (fun md => md.metadata.name) ≠
      ["A", "B", "C"] ∧
    (OrderedVec.ofVec [itemC, itemA, itemB]).data.map (fun md => md.metadata.name) ≠
      ["A", "B", "C"] ∧
    (OrderedVec.ofVec [itemC, itemB, itemA]).data.map (fun md => md.metadata.name) ≠
      ["A", "B", "C"] := by
  refine ⟨?_, ?_, ?_, ?_, ?_, ?_⟩ <;> decide

/-- C3 (amended).  In that scenario construction yields the order B, A, C:
B's score sequence (0) is lexicographically below A's (5), and the untagged
C sorts last.  The result is the same for every order of the initial
sequence. -/
theorem C3_amended_order :
    (OrderedVec.ofVec [itemA, itemB, itemC]).data.map (fun md => md.metadata.name) =
      ["B", "A", "C"] ∧
    (OrderedVec.ofVec [itemA, itemC, itemB]).data.map (fun md => md.metadata.name) =
      ["B", "A", "C"] ∧
    (OrderedVec.ofVec [itemB, itemA, itemC]).data.map (fun md => md.metadata.name) =
      ["B", "A", "C"] ∧
    (OrderedVec.ofVec [itemB, itemC, itemA]).data.map (fun md => md.metadata.name) =
      ["B", "A", "C"] ∧
    (OrderedVec.ofVec [itemC, itemA, itemB]).data.map (fun md => md.metadata.name) =
      ["B", "A", "C"] ∧
    (OrderedVec.ofVec [itemC, itemB, itemA]).data.map (fun md => md.metadata.name) =
      ["B", "A", "C"] := by
  refine ⟨?_, ?_, ?_, ?_, ?_, ?_⟩ <;> decide

/-- C10.  Upserting a mod whose `package_id` matches a stored element
replaces that element wholesale with the incoming record, in particular
replacing its entire tag sub-collection (the stored tags are discarded);
the length is unchanged. -/
theorem C10_mod_patch_replaces_wholesale (v : OrderedVec Mod) (m : Mod)
    (hm : ∃ e ∈ v.data, e.metadata.package_id = m.metadata.package_id) :
    (v.upsert m).len = v.len ∧
    ∃ pre e post, v.data = pre ++ e :: post ∧
      (∀ x ∈ pre, x.metadata.package_id ≠ m.metadata.package_id) ∧
      e.metadata.package_id = m.metadata.package_id ∧
      (v.upsert m).data = pre ++ m :: post := by
  have hdata := upsert_exists_eq v m hm
  constructor
  · rw [OrderedVec.len, OrderedVec.len, hdata, patchFirst_length]
  · rcases patchFirst_decomp m v.data hm with ⟨pre, e, post, h1, h2, h3, h4⟩
    exact ⟨pre, e, post, h1, h2, h3, by rw [hdata, h4]; rfl⟩

/-- C10 (witness): upserting a record with the stored `package_id` but no
tags discards the stored tag sub-collection. -/
theorem C10_witness :
    (V10.upsert soloMod).len = V10.len ∧
    ∃ pre e post, V10.data = pre ++ e :: post ∧
      (∀ x ∈ pre, x.metadata.package_id ≠ soloMod.metadata.package_id) ∧
      e.metadata.package_id = soloMod.metadata.package_id ∧
      (V10.upsert soloMod).data = pre ++ soloMod :: post :=
  C10_mod_patch_replaces_wholesale V10 soloMod (by decide)

/-- C4 (code bug).  The constructor itself breaks the cursor range
invariant: `set_persistent` selects the tag-list cursor whenever the MOD
collection is non-empty (a copy-paste of the item-cursor guard), so the
catalogue with one mod and no tags leaves the tag cursor observably
`some 0` while the tag collection has length 0. -/
theorem C4_constructor_breaks_cursor_invariant :
    (Model.default.set_persistent pModsOnly).list_state = some 0 ∧
    (Model.default.set_persistent pModsOnly).persistent.tags.len = 0 := by
  constructor
  · decide
  · decide

/-- C5 (code bug).  With an empty mod collection and a non-empty tag
collection, the constructor leaves the tag cursor unset although the tag
collection is non-empty: the guard tests `p.mods.is_empty()` instead of the
tag collection. -/
theorem C5_tag_cursor_follows_mods :
    (Model.default.set_persistent pTagsOnly).list_state = none ∧
    (Model.default.set_persistent pTagsOnly).persistent.tags.is_empty = false ∧
    (Model.default.set_persistent pTagsOnly).table_state = none := by
  refine ⟨?_, ?_, ?_⟩ <;> decide

/-- C6.  In Insert mode with both cursors set and in range, the confirm
action (`InsertTag`, the translation of the Enter key) upserts the selected
tag into the tag sub-collection of the item under the item cursor, fully
re-sorts the item collection, resets the tag cursor to the first position,
switches back to Normal mode, and (via the follow-up chain) clears the
repeat buffer; every other field of the model is unchanged.  The second
conjunct states that the resulting item sequence is sorted by the item
order rule. -/
theorem C6_insert_confirm_attaches_and_resorts (m : Model) (rng : Nat × Nat × Nat)
    (i j : Nat) (tg : Tag) (md : Mod)
    (hmode : m.current_mode = .Insert)
    (hj : m.list_state = some j)
    (htag : m.persistent.tags.get j = some tg)
    (hi : m.table_state = some i)
    (hmd : m.persistent.mods.data[i]? = some md) :
    Model.run 3 m (some .InsertTag) rng =
      some { m with
        current_mode := .Normal,
        movement_delta := "",
        list_state := some 0,
        persistent := { m.persistent with
          mods := ⟨sort_by Mod.vec_order
            (m.persistent.mods.data.set i { md with tags := md.tags.upsert tg })⟩ } } ∧
    sortedBy Mod.vec_order
      (sort_by Mod.vec_order
        (m.persistent.mods.data.set i { md with tags := md.tags.upsert tg })) := by
  constructor
  · simp [Model.run, Model.update, OrderedVec.upsert_tag_to, hj, htag, hi, hmd]
  · exact sort_by_sorted mod_vec_order_lawful _

/-- C6 (witness): the confirm action on a concrete two-item model. -/
theorem C6_witness :
    Model.run 3 M6 (some .InsertTag) (0, 0, 0) =
      some { M6 with
        current_mode := .Normal,
        movement_delta := "",
        list_state := some 0,
        persistent := { M6.persistent with
          mods := ⟨sort_by Mod.vec_order
            (M6.persistent.mods.data.set 0 { itemB with tags := itemB.tags.upsert qualityTag })⟩ } } ∧
    sortedBy Mod.vec_order
      (sort_by Mod.vec_order
        (M6.persistent.mods.data.set 0 { itemB with tags := itemB.tags.upsert qualityTag })) :=
  C6_insert_confirm_attaches_and_resorts M6 (0, 0, 0) 0 0 qualityTag itemB
    rfl rfl (by decide) rfl (by decide)

/-- C7.  A movement action parses the repeat buffer (defaulting to 1 when
empty or unparsable), moves the mode's own cursor by saturating subtraction
toward the start or by addition clamped to length minus one toward the end
(an unset cursor stays unset, via `Option.map`), and yields the
`ClearCommand` follow-up; applying `ClearCommand` empties the repeat
buffer, so the next plain movement defaults to delta 1. -/
theorem C7_movement_arithmetic (m : Model) (dir : MoveDirection) (rng : Nat × Nat × Nat) :
    (m.current_mode = .Normal →
      m.update (.MoveDirection dir) rng =
        some ({ m with table_state := m.table_state.map (fun i =>
            match dir with
            | .Up => i - (parse_u64 m.movement_delta).getD 1
            | .Left => i - (parse_u64 m.movement_delta).getD 1
            | .Down => min (i + (parse_u64 m.movement_delta).getD 1) (m.persistent.mods.len - 1)
            | .Right => min (i + (parse_u64 m.movement_delta).getD 1) (m.persistent.mods.len - 1)) },
          some .ClearCommand)) ∧
    (m.current_mode = .Insert →
      m.update (.MoveDirection dir) rng =
        some ({ m with list_state := m.list_state.map (fun i =>
            match dir with
            | .Up => i - (parse_u64 m.movement_delta).getD 1
            | .Left => i - (parse_u64 m.movement_delta).getD 1
            | .Down => min (i + (parse_u64 m.movement_delta).getD 1) (m.persistent.tags.len - 1)
            | .Right => min (i + (parse_u64 m.movement_delta).getD 1) (m.persistent.tags.len - 1)) },
          some .ClearCommand)) ∧
    m.update .ClearCommand rng = some ({ m with movement_delta := "" }, none) := by
  obtain ⟨sc, mode, md, ib, ic, ii, isp, ts, ls, p⟩ := m
  refine ⟨?_, ?_, rfl⟩
  · intro hm
    replace hm : mode = .Normal := hm
    subst hm
    cases dir <;> rfl
  · intro hm
    replace hm : mode = .Insert := hm
    subst hm
    cases dir <;> rfl

/-- C7 (witness): on a five-item collection with buffer "3" and cursor 0, a
down movement lands on index 3 and yields the buffer-clearing follow-up,
and the follow-up empties the buffer. -/
theorem C7_witness :
    M7.update (.MoveDirection .Down) (0, 0, 0) =
      some ({ M7 with table_state := some 3 }, some .ClearCommand) ∧
    ({ M7 with table_state := some 3 } : Model).update .ClearCommand (0, 0, 0) =
      some ({ M7 with table_state := some 3, movement_delta := "" }, none) :=
  ⟨(C7_movement_arithmetic M7 .Down (0, 0, 0)).1 rfl,
   (C7_movement_arithmetic { M7 with table_state := some 3 } .Down (0, 0, 0)).2.2⟩

/-- C8 (code bug).  Entering CreateTag clears the accumulated field values
and installs a fresh random colour, but does NOT reset the field index or
the edit buffer: re-entering after an abandoned session (here: index 1,
buffer "123") keeps the stale index and buffer instead of the claimed fresh
default state. -/
theorem C8_reentry_keeps_stale_form_state :
    (Model.run 2 M8 (some (.ChangeMode .CreateTag)) (1, 2, 3)).map Model.current_mode =
      some .CreateTag ∧
    (Model.run 2 M8 (some (.ChangeMode .CreateTag)) (1, 2, 3)).map Model.input_index =
      some 1 ∧
    (Model.run 2 M8 (some (.ChangeMode .CreateTag)) (1, 2, 3)).map Model.input_buffer =
      some "123" := by
  refine ⟨?_, ?_, ?_⟩ <;> decide

/-- C9.  Submitting the Name field with a buffer that trims to empty yields
`Invalid` and leaves the form state (in particular the field index)
unchanged; submitting a non-empty name advances to field index 1 with the
trimmed name accepted and, since a fresh form has no prior score value, an
empty edit buffer. -/
theorem C9_name_field_validation (s : FormState) (hidx : s.index = 0) :
    ((str_trim s.curr_buff).data.isEmpty = true →
      s.next = some (s, .Invalid)) ∧
    ((str_trim s.curr_buff).data.isEmpty = false → s.spec.score = none →
      s.next = some ({ s with
        spec := { s.spec with name := str_trim s.curr_buff },
        index := 1,
        curr_buff := "" }, .NextField)) := by
  obtain ⟨sc, buff, idx, spec⟩ := s
  replace hidx : idx = 0 := hidx
  subst hidx
  constructor
  · intro hemp
    simp [FormState.next, TagForm.try_into_key, hemp]
  · intro hne hscore
    obtain ⟨nm, scr, col⟩ := spec
    replace hscore : scr = none := hscore
    subst hscore
    simp [FormState.next, TagForm.try_into_key, TagForm.read_key, hne]

/-- C9 (witness): a whitespace-only buffer is rejected in place; a
non-empty buffer advances to the score field with an empty buffer. -/
theorem C9_witness :
    F9a.next = some (F9a, .Invalid) ∧
    F9b.next = some ({ F9b with
      spec := { F9b.spec with name := str_trim F9b.curr_buff },
      index := 1,
      curr_buff := "" }, .NextField) :=
  ⟨(C9_name_field_validation F9a rfl).1 (by decide),
   (C9_name_field_validation F9b rfl).2 (by decide) rfl⟩

end R2M2
